import Mathlib

/-!
Verification of the field-name resolution subsystem and the formula-AST
compiler of the Tableau-to-Looker migration tool.

The definitions below are a shallow embedding of
`src/tableau_to_looker_parser/core/field_name_mapper.py` and
`src/tableau_to_looker_parser/converters/ast_to_lookml_converter.py`.
Python strings are modelled as Lean `String`/`List Char`; `str.lower()` and
`str.upper()` are modelled by their ASCII behaviour (`Char.toLower` /
`Char.toUpper`), which coincides with CPython on the ASCII field names the
tool manipulates.  Python `dict`s are modelled as insertion-ordered
association lists with overwrite-in-place update (CPython semantics), and
Python `set`s as duplicate-free insertion-ordered lists (only membership is
ever observed).  A raised exception is modelled as the `Except.error` case
of an exception monad; `None` as `Option.none`.
-/

namespace AccelPkg

/-- Model of Python `str.lower()` (ASCII): `Char.toLower` lowers exactly
`A`..`Z`, as CPython does on ASCII data. -/
def pyLower (s : String) : String := ⟨s.data.map Char.toLower⟩

/-- Model of Python `str.upper()` (ASCII). -/
def pyUpper (s : String) : String := ⟨s.data.map Char.toUpper⟩

/-- The two bracket characters stripped by `strip("[]")`. -/
def isBracketChar (c : Char) : Bool := c == '[' || c == ']'

/-- Model of Python `str.strip(chars)`: remove every leading and trailing
character satisfying `p` (not just one enclosing pair). -/
def pyStripP (p : Char → Bool) (l : List Char) : List Char :=
  ((l.dropWhile p).reverse.dropWhile p).reverse

/-- `s.strip("[]")` on strings. -/
def pyStripBrackets (s : String) : String := ⟨pyStripP isBracketChar s.data⟩

/-- `s.strip("_")` on strings. -/
def pyStripUnderscores (s : String) : String := ⟨pyStripP (· == '_') s.data⟩

/-- Model of `s.lower().replace(" ", "_")`, the "cleaned" spelling that
`register_field` derives from a field name. -/
def underscoreLower (s : String) : String :=
  ⟨(s.data.map Char.toLower).map (fun c => if c = ' ' then '_' else c)⟩

/-! ## Python `dict` model: insertion-ordered association list -/

/-- Python `dict[str, str]`, as an insertion-ordered association list with
unique keys. -/
abbrev PyDict := List (String × String)

/-- `d[k]` lookup returning `None` when absent (`dict.get`). -/
def dictFind (d : PyDict) (k : String) : Option String :=
  match d with
  | [] => none
  | (k', v) :: rest => if k' = k then some v else dictFind rest k

/-- `k in d`. -/
def dictContains (d : PyDict) (k : String) : Bool :=
  match d with
  | [] => false
  | (k', _) :: rest => k' == k || dictContains rest k

/-- `d[k] = v`: overwrite in place if the key exists (CPython keeps the
original position), otherwise append. -/
def dictInsert (d : PyDict) (k v : String) : PyDict :=
  match d with
  | [] => [(k, v)]
  | (k', v') :: rest => if k' = k then (k, v) :: rest else (k', v') :: dictInsert rest k v

/-- Python `set.add` on the list model of a set. -/
def setAdd (s : List String) (x : String) : List String :=
  if x ∈ s then s else s ++ [x]

/-! ## FieldNameMapper (core/field_name_mapper.py) -/

/-- State of a `FieldNameMapper` instance: the four parallel containers kept
by the Python class. -/
structure FieldNameMapper where
  original_to_clean : PyDict
  clean_to_original : PyDict
  registered_fields : List String
  calculated_fields : List String
deriving Repr, DecidableEq

/-- `FieldNameMapper.__init__`: all containers empty. -/
def FieldNameMapper.empty : FieldNameMapper := ⟨[], [], [], []⟩

/-- `FieldNameMapper.register_field`.  The `caption` parameter of the Python
method is only interpolated into a debug log line, so it is omitted here.
All four container updates follow the source statement by statement,
including the two `!= clean_name` guards for the "cleaned" spellings. -/
def register_field (m : FieldNameMapper) (original_name clean_name : String)
    (is_calculated : Bool) : FieldNameMapper :=
  -- main mapping
  let o2c := dictInsert m.original_to_clean original_name clean_name
  let c2o := dictInsert m.clean_to_original clean_name original_name
  let reg := setAdd (setAdd m.registered_fields original_name) clean_name
  let calcSet :=
    if is_calculated then setAdd (setAdd m.calculated_fields clean_name) original_name
    else m.calculated_fields
  -- bracketed spelling
  let bracketed := "[" ++ original_name ++ "]"
  let o2c := dictInsert o2c bracketed clean_name
  let reg := setAdd reg bracketed
  let calcSet := if is_calculated then setAdd calcSet bracketed else calcSet
  -- cleaned spelling of the original name
  let cleaned := underscoreLower original_name
  let o2c := if cleaned ≠ clean_name then dictInsert o2c cleaned clean_name else o2c
  let reg := if cleaned ≠ clean_name then setAdd reg cleaned else reg
  let calcSet :=
    if cleaned ≠ clean_name then (if is_calculated then setAdd calcSet cleaned else calcSet) else calcSet
  -- cleaned spelling of the bracketed name
  let cleanedBr := underscoreLower bracketed
  let o2c := if cleanedBr ≠ clean_name then dictInsert o2c cleanedBr clean_name else o2c
  let reg := if cleanedBr ≠ clean_name then setAdd reg cleanedBr else reg
  let calcSet :=
    if cleanedBr ≠ clean_name then (if is_calculated then setAdd calcSet cleanedBr else calcSet) else calcSet
  ⟨o2c, c2o, reg, calcSet⟩

/-- `FieldNameMapper.get_clean_name`: exact match, then brackets stripped,
then brackets added, then a first-match case-insensitive scan of the dict
in insertion order. -/
def get_clean_name (m : FieldNameMapper) (original_name : String) : Option String :=
  match dictFind m.original_to_clean original_name with
  | some v => some v
  | none =>
    match dictFind m.original_to_clean (pyStripBrackets original_name) with
    | some v => some v
    | none =>
      match dictFind m.original_to_clean ("[" ++ original_name ++ "]") with
      | some v => some v
      | none =>
        (m.original_to_clean.find? (fun p =>
          pyLower p.1 == pyLower original_name ||
          pyLower p.1 == pyLower (pyStripBrackets original_name) ||
          pyLower p.1 == pyLower ("[" ++ original_name ++ "]"))).map (·.2)

/-- The fallback tail of `resolve_field_reference`: a direct dict probe,
then pass-through of the reference. -/
def resolveFallback (m : FieldNameMapper) (field_reference : String) : String :=
  match dictFind m.original_to_clean field_reference with
  | some v => v
  | none => field_reference

/-- `FieldNameMapper.resolve_field_reference`.  The Python guard
`if clean_name:` is truthiness, so a successfully looked-up *empty* clean
name falls through to the fallback probe. -/
def resolve_field_reference (m : FieldNameMapper) (field_reference : String) : String :=
  match get_clean_name m field_reference with
  | some c => if c = "" then resolveFallback m field_reference else c
  | none => resolveFallback m field_reference

/-- `FieldNameMapper.is_calculated_field`.  The second branch's Python guard
`if clean_name and clean_name in self.calculated_fields:` requires the
resolved clean name to be truthy (non-empty). -/
def is_calculated_field (m : FieldNameMapper) (field_name : String) : Bool :=
  if field_name ∈ m.calculated_fields then true
  else
    match get_clean_name m field_name with
    | some c => c != "" && c ∈ m.calculated_fields
    | none => false

/-! ## create_clean_name_from_caption -/

/-- The character class `[a-z0-9]` of the two regexes in
`create_clean_name_from_caption` (applied after lowercasing). -/
def isAlnumLower (c : Char) : Bool := ('a' ≤ c && c ≤ 'z') || ('0' ≤ c && c ≤ '9')

/-- Model of `str.replace(sub, repl)` for a single-character pattern:
every occurrence of `pat` is replaced by `repl`. -/
def replaceChar (pat : Char) (repl : List Char) : List Char → List Char
  | [] => []
  | c :: rest => (if c = pat then repl else [c]) ++ replaceChar pat repl rest

/-- Model of `re.sub(r"[^a-z0-9]+", "_", s)`: each maximal run of
characters outside `[a-z0-9]` becomes a single `'_'`.  The boolean state
records whether the previous character was part of such a run. -/
def subNonAlnum : List Char → Bool → List Char
  | [], _ => []
  | c :: rest, inGap =>
    if isAlnumLower c then c :: subNonAlnum rest false
    else if inGap then subNonAlnum rest true
    else '_' :: subNonAlnum rest true

/-- Model of `re.sub(r"_+", "_", s)`: each maximal run of underscores
becomes a single underscore. -/
def collapseU : List Char → Bool → List Char
  | [], _ => []
  | c :: rest, prev =>
    if c = '_' then (if prev then collapseU rest true else '_' :: collapseU rest true)
    else c :: collapseU rest false

/-- `FieldNameMapper.create_clean_name_from_caption`: lowercase, replace
`%` with `"_percent"`, collapse non-`[a-z0-9]` runs to `_`, collapse `_`
runs, strip boundary underscores. -/
def create_clean_name_from_caption (caption : String) : String :=
  let s1 := caption.data.map Char.toLower
  let s2 := replaceChar '%' "_percent".data s1
  let s3 := subNonAlnum s2 false
  let s4 := collapseU s3 false
  ⟨pyStripP (· == '_') s4⟩

/-- The transform exactly as the specification words it: lowercase, replace
`%` with the literal word `"percent"` (no underscore), replace maximal
non-`[a-z0-9]` runs with one underscore, collapse repeated underscores,
strip boundary underscores. -/
def derive_clean_name_spec (caption : String) : String :=
  let s1 := caption.data.map Char.toLower
  let s2 := replaceChar '%' "percent".data s1
  let s3 := subNonAlnum s2 false
  let s4 := collapseU s3 false
  ⟨pyStripP (· == '_') s4⟩

/-- A whole-workbook registration pass: `register_field` folded over a list
of `(original, clean, is_calculated)` triples. -/
def applyRegistrations (m : FieldNameMapper) (regs : List (String × String × Bool)) :
    FieldNameMapper :=
  regs.foldl (fun acc r => register_field acc r.1 r.2.1 r.2.2) m

/-- The maximal `[a-z0-9]` runs of a character list, in order; the
characters between (and around) these runs are exactly the spec's "maximal
runs of characters outside `[a-z0-9]`". -/
def alnumRuns (l : List Char) : List (List Char) :=
  match l with
  | [] => []
  | c :: rest =>
    if isAlnumLower c then
      (c :: rest.takeWhile isAlnumLower) :: alnumRuns (rest.dropWhile isAlnumLower)
    else alnumRuns rest
termination_by l.length
decreasing_by
  · simp only [List.length_cons]
    have hle : (rest.dropWhile isAlnumLower).length ≤ rest.length := by
      induction rest with
      | nil => simp
      | cons d rest2 ih =>
        rw [List.dropWhile_cons]
        split
        · exact Nat.le_trans ih (Nat.le_succ _)
        · exact Nat.le_refl _
    omega
  · simp only [List.length_cons]
    omega

/-- Runs joined by single separating underscores. -/
def joinRuns : List (List Char) → List Char
  | [] => []
  | [r] => r
  | r :: rs => r ++ '_' :: joinRuns rs

/-- The amended-specification transform: lowercase; replace `%` with
`"_percent"`; then emit the maximal `[a-z0-9]` runs joined by single
underscores — equivalently, each maximal run outside `[a-z0-9]` becomes one
underscore, repeated underscores collapse, and boundary underscores are
stripped. -/
def derive_clean_name_amended (caption : String) : String :=
  ⟨joinRuns (alnumRuns (replaceChar '%' "_percent".data (caption.data.map Char.toLower)))⟩

/-! ## AST data model (models/ast_schema.py node shapes, §3 of the spec)

The node-type schema module itself is not present under `src/`; the shapes
below follow the spec's §3 data model and the attribute accesses performed
by `ast_to_lookml_converter.py`.  Fields that the converter guards with
Python truthiness/`None` checks are `Option`s.  `REAL` literal *values*
(floats) are outside the model; a literal's value is a string, integer or
boolean object, or `None`. -/

inductive DataType where
  | STRING
  | INTEGER
  | REAL
  | BOOLEAN
deriving Repr, DecidableEq

/-- A Python object sitting in a `Literal` node's `value` attribute. -/
inductive LitValue where
  | vstr (s : String)
  | vint (n : Int)
  | vbool (b : Bool)
deriving Repr, DecidableEq

/-- Python `str(value)`. -/
def LitValue.pyStr : LitValue → String
  | .vstr s => s
  | .vint n => toString n
  | .vbool true => "True"
  | .vbool false => "False"

/-- Python truthiness of the literal value. -/
def LitValue.pyTruthy : LitValue → Bool
  | .vstr s => s != ""
  | .vint n => n != 0
  | .vbool b => b

/-- AST nodes.  `funcCall` is the `FUNCTION` node kind and `caseExpr` the
`CASE` node kind; a when-clause is its `(condition, result)` attribute
pair. -/
inductive ASTNode where
  | fieldRef (field_name : Option String)
  | literal (value : Option LitValue) (data_type : Option DataType)
  | arithmetic (operator : Option String) (left right : Option ASTNode)
  | comparison (operator : Option String) (left right : Option ASTNode)
  | logical (operator : Option String) (left right : Option ASTNode)
  | unary (operator : Option String) (operand : Option ASTNode)
  | funcCall (function_name : Option String) (arguments : List ASTNode)
  | conditional (condition then_branch else_branch : Option ASTNode)
  | caseExpr (case_expression : Option ASTNode)
      (when_clauses : List (Option ASTNode × Option ASTNode))
      (else_branch : Option ASTNode)
deriving Repr

/-! ## AST → LookML converter (converters/ast_to_lookml_converter.py) -/

/-- `_build_function_registry`: the static Tableau → LookML function name
table (`\x7b\x7d` below is the literal `{}` placeholder of the three
template entries). -/
def function_registry (s : String) : Option String :=
  if s = "SUM" then some "SUM"
  else if s = "COUNT" then some "COUNT"
  else if s = "AVG" then some "AVG"
  else if s = "MIN" then some "MIN"
  else if s = "MAX" then some "MAX"
  else if s = "MEDIAN" then some "MEDIAN"
  else if s = "UPPER" then some "UPPER"
  else if s = "LOWER" then some "LOWER"
  else if s = "LEN" then some "LENGTH"
  else if s = "TRIM" then some "TRIM"
  else if s = "LEFT" then some "LEFT"
  else if s = "RIGHT" then some "RIGHT"
  else if s = "MID" then some "SUBSTR"
  else if s = "ABS" then some "ABS"
  else if s = "ROUND" then some "ROUND"
  else if s = "CEILING" then some "CEIL"
  else if s = "FLOOR" then some "FLOOR"
  else if s = "SQRT" then some "SQRT"
  else if s = "POWER" then some "POWER"
  else if s = "YEAR" then some "EXTRACT(YEAR FROM \x7b\x7d)"
  else if s = "MONTH" then some "EXTRACT(MONTH FROM \x7b\x7d)"
  else if s = "DAY" then some "EXTRACT(DAY FROM \x7b\x7d)"
  else if s = "NOW" then some "CURRENT_TIMESTAMP"
  else if s = "TODAY" then some "CURRENT_DATE"
  else none

/-- The opening brace character (written by code point to keep brace
characters out of the source text). -/
def braceOpen : Char := Char.ofNat 123

/-- The closing brace character. -/
def braceClose : Char := Char.ofNat 125

/-- Python `"{}" in template`, used to recognize the single-argument
template entries of the registry. -/
def hasSlotChars : List Char → Bool
  | [] => false
  | [_] => false
  | c :: d :: rest => (c = braceOpen && d = braceClose) || hasSlotChars (d :: rest)

/-- String-level wrapper for `hasSlotChars`. -/
def hasSlot (t : String) : Bool := hasSlotChars t.data

/-- `template.format(arg)` for the registry's one-slot templates: the first
`\x7b\x7d` occurrence is replaced by the argument. -/
def fmtSlotChars (a : List Char) : List Char → List Char
  | [] => []
  | [c] => [c]
  | c :: d :: rest =>
    if c = braceOpen ∧ d = braceClose then a ++ rest
    else c :: fmtSlotChars a (d :: rest)

/-- String-level wrapper for `fmtSlotChars`. -/
def formatSlot (t a : String) : String := ⟨fmtSlotChars a.data t.data⟩

/-- `str.replace("'", "\\'")` — escape embedded single quotes. -/
def escapeQuotes (s : String) : String := ⟨replaceChar '\'' ['\\', '\''] s.data⟩

/-- `_convert_literal` (never raises). -/
def convertLiteral (v : Option LitValue) (dt : Option DataType) : String :=
  match v with
  | none => "NULL"
  | some val =>
    match dt with
    | some .STRING => "'" ++ escapeQuotes val.pyStr ++ "'"
    | some .BOOLEAN => if val.pyTruthy then "TRUE" else "FALSE"
    | some .INTEGER => val.pyStr
    | some .REAL => val.pyStr
    | _ => "'" ++ escapeQuotes val.pyStr ++ "'"

/-- Rendering of an operator attribute inside an f-string: Python prints
`None` as the text `None`. -/
def renderOp : Option String → String
  | none => "None"
  | some s => s

mutual

/-- `_convert_node`: `None` compiles to `"NULL"`, otherwise dispatch on the
node type.  The `Except` layer models a raised Python exception. -/
def convertNode : Option ASTNode → String → Except String String
  | none, _ => Except.ok "NULL"
  | some n, ctx => convertCore n ctx
termination_by o _ => sizeOf o

/-- The per-node-kind `_convert_*` methods, merged into one dispatch. -/
def convertCore : ASTNode → String → Except String String
  | .fieldRef fn, ctx =>
    match fn with
    | none => .ok "/* Missing field name */"
    | some s =>
      if s = "" then .ok "/* Missing field name */"
      else .ok ("$\x7b" ++ ctx ++ "\x7d." ++ underscoreLower s)
  | .literal v dt, _ => .ok (convertLiteral v dt)
  | .arithmetic op l r, ctx =>
    match l, r with
    | some ln, some rn => do
      let le ← convertCore ln ctx
      let ri ← convertCore rn ctx
      if op = some "^" then .ok ("POWER(" ++ le ++ ", " ++ ri ++ ")")
      else if op = some "%" then .ok ("MOD(" ++ le ++ ", " ++ ri ++ ")")
      else .ok ("(" ++ le ++ " " ++ renderOp op ++ " " ++ ri ++ ")")
    | _, _ => .ok "/* Missing operand */"
  | .comparison op l r, ctx =>
    match l, r with
    | some ln, some rn => do
      let le ← convertCore ln ctx
      let ri ← convertCore rn ctx
      let opn := match op with
        | some s => if s = "<>" ∨ s = "!=" then "!=" else s
        | none => "None"
      .ok ("(" ++ le ++ " " ++ opn ++ " " ++ ri ++ ")")
    | _, _ => .ok "/* Missing operand */"
  | .logical op l r, ctx =>
    match l, r with
    | some ln, some rn => do
      let le ← convertCore ln ctx
      let ri ← convertCore rn ctx
      match op with
      | none => .error "'NoneType' object has no attribute 'upper'"
      | some s => .ok ("(" ++ le ++ " " ++ pyUpper s ++ " " ++ ri ++ ")")
    | _, _ => .ok "/* Missing operand */"
  | .unary op operand, ctx =>
    match operand with
    | none => .ok "/* Missing operand */"
    | some o => do
      let oe ← convertCore o ctx
      let opS := match op with
        | some s => pyUpper s
        | none => ""
      if opS = "NOT" then .ok ("NOT " ++ oe)
      else if opS = "-" then .ok ("-" ++ oe)
      else .ok (opS ++ oe)
  | .funcCall name args, ctx =>
    match name with
    | none => .ok "/* Missing function name */"
    | some nm =>
      if nm = "" then .ok "/* Missing function name */"
      else do
        let cargs ← convertArgs args ctx
        let fname := pyUpper nm
        match function_registry fname with
        | some lookml =>
          if hasSlot lookml then
            match cargs with
            | [a] => .ok (formatSlot lookml a)
            | _ => .ok ("/* " ++ fname ++ ": wrong argument count */")
          else .ok (lookml ++ "(" ++ String.intercalate ", " cargs ++ ")")
        | none => .ok (fname ++ "(" ++ String.intercalate ", " cargs ++ ")")
  | .conditional cond thenB elseB, ctx =>
    match cond, thenB with
    | some c, some t => do
      let ce ← convertCore c ctx
      let te ← convertCore t ctx
      let ee ← match elseB with
        | some e => convertCore e ctx
        | none => pure "NULL"
      .ok ("CASE WHEN " ++ ce ++ " THEN " ++ te ++ " ELSE " ++ ee ++ " END")
    | _, _ => .ok "/* Incomplete conditional */"
  | .caseExpr caseE whens elseB, ctx =>
    match whens with
    | [] => .ok "/* CASE statement with no WHEN clauses */"
    | w :: ws => do
      let lead ← match caseE with
        | some n => do
          let s ← convertCore n ctx
          pure ["CASE", s]
        | none => pure ["CASE"]
      let wparts ← convertWhens (w :: ws) ctx
      let eparts ← match elseB with
        | some e => do
          let s ← convertCore e ctx
          pure ["ELSE " ++ s]
        | none => pure ([] : List String)
      .ok (String.intercalate " " (lead ++ wparts ++ eparts ++ ["END"]))
termination_by n _ => sizeOf n

/-- The argument loop of `_convert_function`: converts left to right, the
first raised exception propagating. -/
def convertArgs : List ASTNode → String → Except String (List String)
  | [], _ => .ok []
  | a :: rest, ctx => do
    let s ← convertCore a ctx
    let ss ← convertArgs rest ctx
    .ok (s :: ss)
termination_by l _ => sizeOf l

/-- The when-clause loop of `_convert_case`. -/
def convertWhens : List (Option ASTNode × Option ASTNode) → String →
    Except String (List String)
  | [], _ => .ok []
  | (c, r) :: rest, ctx => do
    let ce ← convertNode c ctx
    let ri ← convertNode r ctx
    let tail ← convertWhens rest ctx
    .ok (("WHEN " ++ ce ++ " THEN " ++ ri) :: tail)
termination_by l _ => sizeOf l

end

/-- `ASTToLookMLConverter.convert_to_lookml`: the top-level error boundary.
A raised exception is caught and rendered as an inline comment embedding
its message. -/
def convert_to_lookml (ast_node : Option ASTNode) (table_context : String) : String :=
  match convertNode ast_node table_context with
  | .ok s => s
  | .error e => "/* Conversion error: " ++ e ++ " */"

/-! ## Helper lemmas about the string and container models -/

theorem toLower_toUpper (c : Char) : c.toUpper.toLower = c.toLower := by
  have key : ∀ n : Nat, 97 ≤ n → n ≤ 122 →
      ((Char.ofNat n).toUpper).toLower = (Char.ofNat n).toLower := by
    intro n h1 h2; interval_cases n <;> decide
  by_cases h : c.toNat ≥ 97 ∧ c.toNat ≤ 122
  · have := key c.toNat h.1 h.2
    rwa [Char.ofNat_toNat] at this
  · have hup : c.toUpper = c := by
      unfold Char.toUpper
      simp only [ge_iff_le]
      rw [if_neg]
      intro hcon
      exact h ⟨hcon.1, hcon.2⟩
    rw [hup]

theorem toLower_toLower (c : Char) : c.toLower.toLower = c.toLower := by
  have key : ∀ n : Nat, 65 ≤ n → n ≤ 90 →
      ((Char.ofNat n).toLower).toLower = (Char.ofNat n).toLower := by
    intro n h1 h2; interval_cases n <;> decide
  by_cases h : c.toNat ≥ 65 ∧ c.toNat ≤ 90
  · have := key c.toNat h.1 h.2
    rwa [Char.ofNat_toNat] at this
  · have hlow : c.toLower = c := by
      unfold Char.toLower
      simp only [ge_iff_le]
      rw [if_neg]
      intro hcon
      exact h ⟨hcon.1, hcon.2⟩
    rw [hlow]
    exact hlow

theorem pyLower_pyUpper (s : String) : pyLower (pyUpper s) = pyLower s := by
  have : ∀ l : List Char, (l.map Char.toUpper).map Char.toLower = l.map Char.toLower := by
    intro l; induction l with
    | nil => rfl
    | cons c rest ih => simp [ih, toLower_toUpper]
  simp [pyLower, pyUpper, this]

theorem pyLower_pyLower (s : String) : pyLower (pyLower s) = pyLower s := by
  have : ∀ l : List Char, (l.map Char.toLower).map Char.toLower = l.map Char.toLower := by
    intro l; induction l with
    | nil => rfl
    | cons c rest ih => simp [ih, toLower_toLower]
  simp [pyLower, this]

theorem mem_dictInsert {d : PyDict} {k v : String} {p : String × String}
    (hp : p ∈ dictInsert d k v) : p ∈ d ∨ p = (k, v) := by
  induction d with
  | nil => right; simpa [dictInsert] using hp
  | cons q rest ih =>
    obtain ⟨k', v'⟩ := q
    simp only [dictInsert] at hp
    split at hp
    · rcases List.mem_cons.mp hp with h | h
      · right; exact h
      · left; exact List.mem_cons_of_mem _ h
    · rcases List.mem_cons.mp hp with h | h
      · left; exact h ▸ List.mem_cons_self _ _
      · rcases ih h with h' | h'
        · left; exact List.mem_cons_of_mem _ h'
        · right; exact h'

theorem mem_dictInsert_self (d : PyDict) (k v : String) : (k, v) ∈ dictInsert d k v := by
  induction d with
  | nil => simp [dictInsert]
  | cons q rest ih =>
    obtain ⟨k', v'⟩ := q
    simp only [dictInsert]
    split
    · exact List.mem_cons_self _ _
    · exact List.mem_cons_of_mem _ ih

theorem mem_dictInsert_of_ne {d : PyDict} {k k' v' w : String} (hk : k ≠ k')
    (hw : (k, w) ∈ d) : (k, w) ∈ dictInsert d k' v' := by
  induction d with
  | nil => simp at hw
  | cons q rest ih =>
    obtain ⟨k0, v0⟩ := q
    simp only [dictInsert]
    rcases List.mem_cons.mp hw with h | h
    · split
      · next heq =>
        rw [Prod.mk.injEq] at h
        exact absurd (h.1.trans heq) hk
      · exact h ▸ List.mem_cons_self _ _
    · split
      · exact List.mem_cons_of_mem _ h
      · exact List.mem_cons_of_mem _ (ih h)

theorem keyMem_dictInsert_self (d : PyDict) (k v : String) :
    ∃ w, (k, w) ∈ dictInsert d k v := ⟨v, mem_dictInsert_self d k v⟩

theorem keyMem_dictInsert {d : PyDict} {k k' v' : String} (h : ∃ w, (k, w) ∈ d) :
    ∃ w, (k, w) ∈ dictInsert d k' v' := by
  by_cases hk : k = k'
  · subst hk; exact keyMem_dictInsert_self d k v'
  · obtain ⟨w, hw⟩ := h
    exact ⟨w, mem_dictInsert_of_ne hk hw⟩

theorem values_dictInsert {d : PyDict} {k v c : String}
    (hall : ∀ p ∈ d, p.2 = c) (hv : v = c) :
    ∀ p ∈ dictInsert d k v, p.2 = c := by
  intro p hp
  rcases mem_dictInsert hp with h | h
  · exact hall p h
  · rw [h]; exact hv

theorem dictFind_mem {d : PyDict} {k v : String} (h : dictFind d k = some v) :
    (k, v) ∈ d := by
  induction d with
  | nil => simp [dictFind] at h
  | cons q rest ih =>
    obtain ⟨k', v'⟩ := q
    simp only [dictFind] at h
    split at h
    · next heq =>
      cases h
      exact heq ▸ List.mem_cons_self _ _
    · exact List.mem_cons_of_mem _ (ih h)

theorem dictFind_isSome_of_mem {d : PyDict} {k v : String} (h : (k, v) ∈ d) :
    (dictFind d k).isSome := by
  induction d with
  | nil => simp at h
  | cons q rest ih =>
    obtain ⟨k', v'⟩ := q
    simp only [dictFind]
    split
    · rfl
    · next hne =>
      rcases List.mem_cons.mp h with h' | h'
      · rw [Prod.mk.injEq] at h'
        exact absurd h'.1.symm hne
      · exact ih h'

theorem mem_setAdd_self (s : List String) (x : String) : x ∈ setAdd s x := by
  unfold setAdd
  split
  · assumption
  · simp

theorem mem_setAdd_of_mem {s : List String} {y : String} (x : String) (h : y ∈ s) :
    y ∈ setAdd s x := by
  unfold setAdd
  split
  · exact h
  · simp [h]

/-! ## Helper lemmas about `get_clean_name` / `resolve_field_reference` -/

theorem get_clean_name_mem {m : FieldNameMapper} {ref v : String}
    (h : get_clean_name m ref = some v) :
    ∃ k, (k, v) ∈ m.original_to_clean := by
  unfold get_clean_name at h
  cases h1 : dictFind m.original_to_clean ref with
  | some w => rw [h1] at h; cases h; exact ⟨ref, dictFind_mem h1⟩
  | none =>
    rw [h1] at h
    cases h2 : dictFind m.original_to_clean (pyStripBrackets ref) with
    | some w => rw [h2] at h; cases h; exact ⟨_, dictFind_mem h2⟩
    | none =>
      rw [h2] at h
      cases h3 : dictFind m.original_to_clean ("[" ++ ref ++ "]") with
      | some w => rw [h3] at h; cases h; exact ⟨_, dictFind_mem h3⟩
      | none =>
        rw [h3] at h
        simp only [Option.map_eq_some'] at h
        obtain ⟨p, hp, hv⟩ := h
        exact ⟨p.1, by
          have := List.mem_of_find?_eq_some hp
          rw [← hv]
          simpa using this⟩

theorem get_clean_name_isSome_exact {m : FieldNameMapper} {ref : String}
    (h : (dictFind m.original_to_clean ref).isSome) :
    (get_clean_name m ref).isSome := by
  unfold get_clean_name
  cases h1 : dictFind m.original_to_clean ref with
  | some w => rfl
  | none => rw [h1] at h; simp at h

theorem get_clean_name_isSome_stripped {m : FieldNameMapper} {ref : String}
    (h : (dictFind m.original_to_clean (pyStripBrackets ref)).isSome) :
    (get_clean_name m ref).isSome := by
  unfold get_clean_name
  cases h1 : dictFind m.original_to_clean ref with
  | some w => rfl
  | none =>
    cases h2 : dictFind m.original_to_clean (pyStripBrackets ref) with
    | some w => rfl
    | none => rw [h2] at h; simp at h

theorem get_clean_name_isSome_ci {m : FieldNameMapper} {ref k v : String}
    (hmem : (k, v) ∈ m.original_to_clean) (hl : pyLower k = pyLower ref) :
    (get_clean_name m ref).isSome := by
  unfold get_clean_name
  cases h1 : dictFind m.original_to_clean ref with
  | some w => rfl
  | none =>
    cases h2 : dictFind m.original_to_clean (pyStripBrackets ref) with
    | some w => rfl
    | none =>
      cases h3 : dictFind m.original_to_clean ("[" ++ ref ++ "]") with
      | some w => rfl
      | none =>
        simp only [Option.isSome_map', List.find?_isSome]
        exact ⟨(k, v), hmem, by simp [hl]⟩

theorem resolve_of_get {m : FieldNameMapper} {ref c : String}
    (h : get_clean_name m ref = some c) (hc : c ≠ "") :
    resolve_field_reference m ref = c := by
  unfold resolve_field_reference
  rw [h]
  simp [hc]

theorem resolve_eq_of_isSome {m : FieldNameMapper} {ref c : String}
    (hall : ∀ p ∈ m.original_to_clean, p.2 = c)
    (hs : (get_clean_name m ref).isSome) (hc : c ≠ "") :
    resolve_field_reference m ref = c := by
  obtain ⟨v, hv⟩ := Option.isSome_iff_exists.mp hs
  obtain ⟨k, hk⟩ := get_clean_name_mem hv
  have hvc : v = c := hall _ hk
  subst hvc
  exact resolve_of_get hv hc

/-! ## Helper lemmas about `register_field` states -/

theorem register_values {m : FieldNameMapper} {o c : String} {b : Bool}
    (hall : ∀ p ∈ m.original_to_clean, p.2 = c) :
    ∀ p ∈ (register_field m o c b).original_to_clean, p.2 = c := by
  simp only [register_field]
  split_ifs <;>
    first
      | exact values_dictInsert
          (values_dictInsert (values_dictInsert (values_dictInsert hall rfl) rfl) rfl) rfl
      | exact values_dictInsert (values_dictInsert (values_dictInsert hall rfl) rfl) rfl
      | exact values_dictInsert (values_dictInsert hall rfl) rfl

theorem register_keyMem_original (m : FieldNameMapper) (o c : String) (b : Bool) :
    ∃ w, (o, w) ∈ (register_field m o c b).original_to_clean := by
  simp only [register_field]
  split_ifs <;>
    first
      | exact keyMem_dictInsert (keyMem_dictInsert (keyMem_dictInsert (keyMem_dictInsert_self _ _ _)))
      | exact keyMem_dictInsert (keyMem_dictInsert (keyMem_dictInsert_self _ _ _))
      | exact keyMem_dictInsert (keyMem_dictInsert_self _ _ _)

theorem register_keyMem_bracketed (m : FieldNameMapper) (o c : String) (b : Bool) :
    ∃ w, ("[" ++ o ++ "]", w) ∈ (register_field m o c b).original_to_clean := by
  simp only [register_field]
  split_ifs <;>
    first
      | exact keyMem_dictInsert (keyMem_dictInsert (keyMem_dictInsert_self _ _ _))
      | exact keyMem_dictInsert (keyMem_dictInsert_self _ _ _)
      | exact keyMem_dictInsert_self _ _ _

theorem register_calc_sub {m : FieldNameMapper} {o c x : String} {b : Bool}
    (h : x ∈ m.calculated_fields) :
    x ∈ (register_field m o c b).calculated_fields := by
  simp only [register_field]
  split_ifs <;> (repeat (first | exact h | apply mem_setAdd_of_mem))

theorem register_calc_false (m : FieldNameMapper) (o c : String) :
    (register_field m o c false).calculated_fields = m.calculated_fields := by
  simp [register_field]

theorem register_calc_mem_original (m : FieldNameMapper) (o c : String) :
    o ∈ (register_field m o c true).calculated_fields := by
  simp only [register_field]
  split_ifs <;>
    (repeat (first | exact mem_setAdd_self _ _ | apply mem_setAdd_of_mem))

theorem register_calc_mem_clean (m : FieldNameMapper) (o c : String) :
    c ∈ (register_field m o c true).calculated_fields := by
  simp only [register_field]
  split_ifs <;>
    (repeat (first | exact mem_setAdd_self _ _ | apply mem_setAdd_of_mem))

theorem register_calc_mem_bracketed (m : FieldNameMapper) (o c : String) :
    ("[" ++ o ++ "]") ∈ (register_field m o c true).calculated_fields := by
  simp only [register_field]
  split_ifs <;>
    (repeat (first | exact mem_setAdd_self _ _ | apply mem_setAdd_of_mem))

theorem register_calc_mem_cleaned (m : FieldNameMapper) (o c : String) :
    underscoreLower o ∈ (register_field m o c true).calculated_fields := by
  by_cases h : underscoreLower o = c
  · rw [h]; exact register_calc_mem_clean m o c
  · simp only [register_field]
    split_ifs <;>
      (repeat (first | exact mem_setAdd_self _ _ | apply mem_setAdd_of_mem))

theorem register_calc_mem_cleanedBr (m : FieldNameMapper) (o c : String) :
    underscoreLower ("[" ++ o ++ "]") ∈ (register_field m o c true).calculated_fields := by
  by_cases h : underscoreLower ("[" ++ o ++ "]") = c
  · rw [h]; exact register_calc_mem_clean m o c
  · simp only [register_field]
    split_ifs <;>
      (repeat (first | exact mem_setAdd_self _ _ | apply mem_setAdd_of_mem))

theorem is_calculated_of_mem {m : FieldNameMapper} {x : String}
    (h : x ∈ m.calculated_fields) : is_calculated_field m x = true := by
  unfold is_calculated_field
  rw [if_pos h]

theorem is_calculated_empty_calc {m : FieldNameMapper} {x : String}
    (h : m.calculated_fields = []) : is_calculated_field m x = false := by
  unfold is_calculated_field
  rw [h]
  simp only [List.not_mem_nil, if_false]
  cases get_clean_name m x <;> simp

/-! ## Theorems (continued claims) -/

/-- C4 counterexample: registering a field with an *empty* clean name makes
the case-variant lookups fail the Python truthiness guard in
`resolve_field_reference`: the upper-cased spelling of a registered original
name resolves to itself, not to the registered clean name. -/
theorem registered_aliases_resolve_cex :
    pyUpper "a" = "A" ∧
    resolve_field_reference (register_field .empty "a" "" false) "A" = "A" ∧
    ("A" : String) ≠ "" :=
  ⟨rfl, rfl, by decide⟩

/-- C4 amended: provided the registered clean name is non-empty, after
`register_field original clean` on a fresh mapper, `resolve_field_reference`
returns the clean name on the exact original name, on its bracketed form,
and on its upper-cased and lower-cased spellings. -/
theorem registered_aliases_resolve (o c : String) (b : Bool) (hc : c ≠ "") :
    resolve_field_reference (register_field .empty o c b) o = c ∧
    resolve_field_reference (register_field .empty o c b) ("[" ++ o ++ "]") = c ∧
    resolve_field_reference (register_field .empty o c b) (pyUpper o) = c ∧
    resolve_field_reference (register_field .empty o c b) (pyLower o) = c := by
  have hall : ∀ p ∈ (register_field .empty o c b).original_to_clean, p.2 = c :=
    register_values (by simp [FieldNameMapper.empty])
  obtain ⟨w1, hw1⟩ := register_keyMem_original .empty o c b
  obtain ⟨w2, hw2⟩ := register_keyMem_bracketed .empty o c b
  refine ⟨?_, ?_, ?_, ?_⟩
  · exact resolve_eq_of_isSome hall
      (get_clean_name_isSome_exact (dictFind_isSome_of_mem hw1)) hc
  · exact resolve_eq_of_isSome hall
      (get_clean_name_isSome_exact (dictFind_isSome_of_mem hw2)) hc
  · exact resolve_eq_of_isSome hall
      (get_clean_name_isSome_ci hw1 (pyLower_pyUpper o).symm) hc
  · exact resolve_eq_of_isSome hall
      (get_clean_name_isSome_ci hw1 (pyLower_pyLower o).symm) hc

/-- Witness for C4 amended at a concrete registration. -/
theorem registered_aliases_resolve_witness :
    ("movie_title" : String) ≠ "" ∧
    resolve_field_reference (register_field .empty "Movie Title" "movie_title" false)
      (pyUpper "Movie Title") = "movie_title" :=
  ⟨by decide, (registered_aliases_resolve "Movie Title" "movie_title" false (by decide)).2.2.1⟩

/-- C7: registering a field on a fresh mapper and then querying
`is_calculated_field` on any of the four generated aliases (original,
bracketed, lower-cased/underscored, bracketed-lower-cased) returns exactly
the boolean passed at registration time. -/
theorem register_is_calculated_roundtrip (o c : String) (b : Bool) :
    is_calculated_field (register_field .empty o c b) o = b ∧
    is_calculated_field (register_field .empty o c b) ("[" ++ o ++ "]") = b ∧
    is_calculated_field (register_field .empty o c b) (underscoreLower o) = b ∧
    is_calculated_field (register_field .empty o c b)
      (underscoreLower ("[" ++ o ++ "]")) = b := by
  cases b with
  | false =>
    have h : (register_field .empty o c false).calculated_fields = [] := by
      rw [register_calc_false]
      rfl
    exact ⟨is_calculated_empty_calc h, is_calculated_empty_calc h,
      is_calculated_empty_calc h, is_calculated_empty_calc h⟩
  | true =>
    exact ⟨is_calculated_of_mem (register_calc_mem_original _ o c),
      is_calculated_of_mem (register_calc_mem_bracketed _ o c),
      is_calculated_of_mem (register_calc_mem_cleaned _ o c),
      is_calculated_of_mem (register_calc_mem_cleanedBr _ o c)⟩

/-- C9 counterexample: a reference that is calculated only through
case-insensitive resolution loses the flag when a later registration remaps
the resolved spelling: after `register_field "Ab" "c1" True`,
`is_calculated_field "AB"` is true, but a subsequent
`register_field "AB" "c2" False` (no `clear()` in between) flips it to
false. -/
theorem calculated_flag_monotone_cex :
    is_calculated_field (register_field .empty "Ab" "c1" true) "AB" = true ∧
    is_calculated_field
      (register_field (register_field .empty "Ab" "c1" true) "AB" "c2" false) "AB" = false :=
  ⟨rfl, rfl⟩

/-- C9 amended: the calculated-fields *set* itself only ever grows, so a
reference that is an element of the set stays calculated across every
subsequent `register_field` call (no `clear()`); monotonicity can only fail
for references whose `True` came from resolution to a clean name that a
later registration remaps. -/
theorem calculated_flag_monotone_amended (m : FieldNameMapper) (r : String)
    (regs : List (String × String × Bool)) (h : r ∈ m.calculated_fields) :
    r ∈ (applyRegistrations m regs).calculated_fields ∧
    is_calculated_field (applyRegistrations m regs) r = true := by
  have hmem : r ∈ (applyRegistrations m regs).calculated_fields := by
    induction regs generalizing m with
    | nil => exact h
    | cons q rest ih =>
      simp only [applyRegistrations, List.foldl_cons] at *
      exact ih _ (register_calc_sub h)
  exact ⟨hmem, is_calculated_of_mem hmem⟩

/-- Witness for C9 amended: a direct alias re-registered as non-calculated
stays calculated. -/
theorem calculated_flag_monotone_witness :
    "x" ∈ (register_field .empty "x" "c" true).calculated_fields ∧
    is_calculated_field
      (applyRegistrations (register_field .empty "x" "c" true) [("x", "c2", false)]) "x"
      = true :=
  ⟨by decide,
    (calculated_flag_monotone_amended (register_field .empty "x" "c" true) "x"
      [("x", "c2", false)] (by decide)).2⟩

/-- `strip` of a wrapped string: if every character of `l` and `r` satisfies
`p` and the wrapped core neither starts nor ends with a `p`-character, the
strip returns exactly the core. -/
theorem pyStripP_wrap (p : Char → Bool) (l mid r : List Char)
    (hl : ∀ ch ∈ l, p ch) (hr : ∀ ch ∈ r, p ch)
    (hhead : ∀ ch, mid.head? = some ch → p ch = false)
    (hlast : ∀ ch, mid.getLast? = some ch → p ch = false) :
    pyStripP p (l ++ mid ++ r) = mid := by
  unfold pyStripP
  cases hm : mid with
  | nil =>
    subst hm
    have h1 : List.dropWhile p (l ++ [] ++ r) = [] := by
      rw [List.dropWhile_eq_nil_iff]
      intro x hx
      simp only [List.append_nil] at hx
      rcases List.mem_append.mp hx with h | h
      · exact hl x h
      · exact hr x h
    rw [h1]
    rfl
  | cons c0 mid' =>
    subst hm
    have hc0 : p c0 = false := hhead c0 rfl
    have h1 : List.dropWhile p (l ++ (c0 :: mid') ++ r) = c0 :: (mid' ++ r) := by
      rw [List.append_assoc, List.dropWhile_append_of_pos hl, List.cons_append,
        List.dropWhile_cons_of_neg (by simp [hc0])]
    rw [h1]
    have h2 : (c0 :: (mid' ++ r)) = (c0 :: mid') ++ r := by simp
    rw [h2, List.reverse_append,
      List.dropWhile_append_of_pos (by intro x hx; exact hr x (List.mem_reverse.mp hx))]
    have hmrev : (c0 :: mid').reverse ≠ [] := by simp
    obtain ⟨cl, restRev, hrev⟩ := List.exists_cons_of_ne_nil hmrev
    have hcl : p cl = false := by
      apply hlast
      rw [← List.head?_reverse, hrev]
      rfl
    rw [hrev, List.dropWhile_cons_of_neg (by simp [hcl]), ← hrev]
    simp

/-- C10 counterexample: bracket stripping is not inverse to bracket
wrapping.  (i) If the original name itself ends in a bracket character
(`"a]"`), wrapping it with one more `]` makes every lookup form miss and
the reference passes through.  (ii) With an empty clean name, even the
plainly wrapped `"[[a]]"` fails the truthiness guard and passes through. -/
theorem bracket_wrapped_resolve_cex :
    resolve_field_reference (register_field .empty "a]" "b" false) "a]]" = "a]]" ∧
    ("a]]" : String) ≠ "b" ∧
    resolve_field_reference (register_field .empty "a" "" false) "[[a]]" = "[[a]]" ∧
    ("[[a]]" : String) ≠ "" :=
  ⟨rfl, by decide, rfl, by decide⟩

/-- C10 amended: for a registered pair whose clean name is non-empty and
whose original name neither starts nor ends with a bracket character,
resolution of the original name wrapped in any number of leading/trailing
bracket characters (matched or not) returns the clean name. -/
theorem bracket_wrapped_resolve (o c : String) (b : Bool) (l r : List Char)
    (hc : c ≠ "")
    (hl : ∀ ch ∈ l, isBracketChar ch = true)
    (hr : ∀ ch ∈ r, isBracketChar ch = true)
    (hhead : ∀ ch, o.data.head? = some ch → isBracketChar ch = false)
    (hlast : ∀ ch, o.data.getLast? = some ch → isBracketChar ch = false) :
    resolve_field_reference (register_field .empty o c b) ⟨l ++ o.data ++ r⟩ = c := by
  have hall : ∀ p ∈ (register_field .empty o c b).original_to_clean, p.2 = c :=
    register_values (by simp [FieldNameMapper.empty])
  obtain ⟨w, hw⟩ := register_keyMem_original .empty o c b
  have hstrip : pyStripBrackets ⟨l ++ o.data ++ r⟩ = o := by
    unfold pyStripBrackets
    rw [pyStripP_wrap isBracketChar l o.data r hl hr hhead hlast]
  apply resolve_eq_of_isSome hall ?_ hc
  apply get_clean_name_isSome_stripped
  rw [hstrip]
  exact dictFind_isSome_of_mem hw

/-- Witness for C10 amended: `"[[x]]"` (two wrapping pairs) resolves to the
registered clean name. -/
theorem bracket_wrapped_resolve_witness :
    ("y" : String) ≠ "" ∧
    resolve_field_reference (register_field .empty "x" "y" false)
      ⟨['[', '['] ++ ("x" : String).data ++ [']', ']']⟩ = "y" :=
  ⟨by decide,
    bracket_wrapped_resolve "x" "y" false ['[', '['] [']', ']'] (by decide)
      (by decide) (by decide) (by decide) (by decide)⟩

/-! ## Theorems -/

/-- C1: `convert_to_lookml` is total on every AST node (it returns a plain
`String`, raised exceptions being the `Except.error` case of the internal
conversion); a successful internal conversion is returned as-is, an internal
exception is returned as the inline marker `/* Conversion error: <msg> */`,
and the malformed `Arithmetic` node with a null right operand yields the
`/* Missing operand */` diagnostic rather than an exception. -/
theorem convert_never_raises (node : Option ASTNode) (ctx : String) :
    (∀ s, convertNode node ctx = Except.ok s → convert_to_lookml node ctx = s) ∧
    (∀ e, convertNode node ctx = Except.error e →
      convert_to_lookml node ctx = "/* Conversion error: " ++ e ++ " */") ∧
    convert_to_lookml (some (.arithmetic (some "+") (some (.fieldRef (some "x"))) none)) ctx
      = "/* Missing operand */" := by
  refine ⟨?_, ?_, ?_⟩
  · intro s h; simp [convert_to_lookml, h]
  · intro e h; simp [convert_to_lookml, h]
  · simp [convert_to_lookml, convertNode, convertCore]

/-- Witness for C1 at a node whose conversion raises internally (a `Logical`
node with a `None` operator). -/
theorem convert_never_raises_witness :
    convertNode (some (.logical none (some (.fieldRef (some "a")))
        (some (.fieldRef (some "b"))))) "TABLE"
      = Except.error "'NoneType' object has no attribute 'upper'" ∧
    convert_to_lookml (some (.logical none (some (.fieldRef (some "a")))
        (some (.fieldRef (some "b"))))) "TABLE"
      = "/* Conversion error: 'NoneType' object has no attribute 'upper' */" := by
  have h : convertNode (some (.logical none (some (.fieldRef (some "a")))
      (some (.fieldRef (some "b"))))) "TABLE"
      = Except.error "'NoneType' object has no attribute 'upper'" := by
    simp [convertNode, convertCore, bind, Except.bind]
  exact ⟨h, (convert_never_raises _ "TABLE").2.1 _ h⟩

/-- C5: a reference that matches no registered mapping under any of the four
lookup forms (`get_clean_name` returns `None`) resolves to itself, and
resolution of such a reference is idempotent. -/
theorem resolve_passthrough (m : FieldNameMapper) (x : String)
    (h : get_clean_name m x = none) :
    resolve_field_reference m x = x ∧
    resolve_field_reference m (resolve_field_reference m x) = resolve_field_reference m x := by
  have hfind : dictFind m.original_to_clean x = none := by
    unfold get_clean_name at h
    cases hd : dictFind m.original_to_clean x with
    | none => rfl
    | some v => rw [hd] at h; simp at h
  have h1 : resolve_field_reference m x = x := by
    unfold resolve_field_reference
    rw [h]
    unfold resolveFallback
    rw [hfind]
  exact ⟨h1, by rw [h1]; exact h1⟩

/-- Witness for C5: the string `"foo"` in an empty mapper. -/
theorem resolve_passthrough_witness :
    get_clean_name FieldNameMapper.empty "foo" = none ∧
    resolve_field_reference FieldNameMapper.empty "foo" = "foo" :=
  ⟨rfl, (resolve_passthrough FieldNameMapper.empty "foo" rfl).1⟩

/-- Evaluation of a non-degenerate `FieldRef` conversion (shared by the
field-reference claims). -/
theorem fieldref_eval (ctx s : String) (hs : s ≠ "") :
    convert_to_lookml (some (.fieldRef (some s))) ctx
      = "$\x7b" ++ ctx ++ "\x7d." ++ underscoreLower s := by
  have hc : convertNode (some (.fieldRef (some s))) ctx
      = Except.ok ("$\x7b" ++ ctx ++ "\x7d." ++ underscoreLower s) := by
    simp [convertNode, convertCore, hs]
  simp [convert_to_lookml, hc]

/-- C6: a `FieldRef` with a non-empty field name compiles to the table
context followed by the lower-cased, space-to-underscore field name; a
missing or empty field name yields the placeholder diagnostic; and the
spec's concrete example holds. -/
theorem fieldref_normalization (ctx s : String) :
    (s ≠ "" → convert_to_lookml (some (.fieldRef (some s))) ctx
      = "$\x7b" ++ ctx ++ "\x7d." ++ underscoreLower s) ∧
    convert_to_lookml (some (.fieldRef none)) ctx = "/* Missing field name */" ∧
    convert_to_lookml (some (.fieldRef (some ""))) ctx = "/* Missing field name */" ∧
    convert_to_lookml (some (.fieldRef (some "Movie Title"))) "TABLE"
      = "$\x7bTABLE\x7d.movie_title" := by
  refine ⟨fun hs => fieldref_eval ctx s hs,
    by simp [convert_to_lookml, convertNode, convertCore],
    by simp [convert_to_lookml, convertNode, convertCore],
    by simp [convert_to_lookml, convertNode, convertCore]; rfl⟩

/-- Witness for C6 at the spec's example input. -/
theorem fieldref_normalization_witness :
    "Movie Title" ≠ "" ∧
    convert_to_lookml (some (.fieldRef (some "Movie Title"))) "TABLE"
      = "$\x7b" ++ "TABLE" ++ "\x7d." ++ underscoreLower "Movie Title" :=
  ⟨by decide, (fieldref_normalization "TABLE" "Movie Title").1 (by decide)⟩

/-- C2 counterexample: with the opaque identifier registered to the clean
name `take_rate_percent`, compiling a `FieldRef` carrying the original name
emits the lower-cased original name, not the registered clean name — the
compiler never consults the resolver. -/
theorem compiler_ignores_resolver_cex :
    resolve_field_reference
        (register_field .empty "Calculation_978688514352406528" "take_rate_percent" true)
        "Calculation_978688514352406528" = "take_rate_percent" ∧
    convert_to_lookml (some (.fieldRef (some "Calculation_978688514352406528"))) "TABLE"
      = "$\x7bTABLE\x7d.calculation_978688514352406528" ∧
    "$\x7bTABLE\x7d.calculation_978688514352406528" ≠ "$\x7bTABLE\x7d.take_rate_percent" :=
  ⟨rfl, by simp [convert_to_lookml, convertNode, convertCore]; rfl, by decide⟩

/-- `String.append` is left-cancellative. -/
theorem string_append_left_cancel {p a b : String} (h : p ++ a = p ++ b) : a = b := by
  have hd : p.data ++ a.data = p.data ++ b.data := by
    have := congrArg String.data h
    simpa [String.data] using this
  cases a; cases b
  simp_all [List.append_cancel_left_eq]

/-- C2 amended: compiling a `FieldRef` emits the lower-cased,
space-to-underscore form of the node's own `field_name`, independent of any
resolver registration; whenever that form differs from the registered clean
name, the clean name is not what gets emitted. -/
theorem fieldref_independent_of_resolver (originalName clean ctx : String)
    (h : originalName ≠ "") :
    convert_to_lookml (some (.fieldRef (some originalName))) ctx
      = "$\x7b" ++ ctx ++ "\x7d." ++ underscoreLower originalName ∧
    (underscoreLower originalName ≠ clean →
      convert_to_lookml (some (.fieldRef (some originalName))) ctx
        ≠ "$\x7b" ++ ctx ++ "\x7d." ++ clean) := by
  have h1 := fieldref_eval ctx originalName h
  refine ⟨h1, ?_⟩
  intro hne heq
  rw [h1] at heq
  have : ("$\x7b" ++ ctx ++ "\x7d.") ++ underscoreLower originalName
      = ("$\x7b" ++ ctx ++ "\x7d.") ++ clean := by
    simpa [String.append_assoc] using heq
  exact hne (string_append_left_cancel this)

/-- Witness for C2 amended at the spec's opaque-identifier example. -/
theorem fieldref_independent_of_resolver_witness :
    "Calculation_978688514352406528" ≠ "" ∧
    underscoreLower "Calculation_978688514352406528" ≠ "take_rate_percent" ∧
    convert_to_lookml (some (.fieldRef (some "Calculation_978688514352406528"))) "TABLE"
      ≠ "$\x7b" ++ "TABLE" ++ "\x7d." ++ "take_rate_percent" :=
  ⟨by decide, by decide,
    (fieldref_independent_of_resolver "Calculation_978688514352406528"
      "take_rate_percent" "TABLE" (by decide)).2 (by decide)⟩

/-- C3 counterexample: the code replaces `%` with `"_percent"`, not with the
bare word `"percent"` the claim states, and the two transforms disagree on
`"50%"`. -/
theorem derive_clean_name_percent_cex :
    create_clean_name_from_caption "50%" = "50_percent" ∧
    derive_clean_name_spec "50%" = "50percent" ∧
    create_clean_name_from_caption "50%" ≠ derive_clean_name_spec "50%" :=
  ⟨rfl, rfl, by decide⟩

/-- C8: for a `FunctionCall` whose upper-cased name maps to a one-slot
template entry of the static registry (the date-part extraction entries)
and whose arguments all compile, exactly one argument instantiates the
template with the compiled argument, while any other arity yields the
`/* NAME: wrong argument count */` diagnostic. -/
theorem template_arity (name t ctx : String) (args : List ASTNode) (rs : List String)
    (hreg : function_registry (pyUpper name) = some t)
    (hslot : hasSlot t = true)
    (hargs : convertArgs args ctx = Except.ok rs) :
    (∀ a, rs = [a] →
      convert_to_lookml (some (.funcCall (some name) args)) ctx = formatSlot t a) ∧
    (rs.length ≠ 1 →
      convert_to_lookml (some (.funcCall (some name) args)) ctx
        = "/* " ++ pyUpper name ++ ": wrong argument count */") := by
  have hne : name ≠ "" := by
    intro h
    subst h
    rw [show pyUpper "" = "" from rfl] at hreg
    rw [show function_registry "" = none from rfl] at hreg
    exact Option.noConfusion hreg
  constructor
  · intro a hrs
    subst hrs
    have hc : convertNode (some (.funcCall (some name) args)) ctx
        = Except.ok (formatSlot t a) := by
      simp [convertNode, convertCore, hne, hargs, hreg, hslot, bind, Except.bind]
    simp [convert_to_lookml, hc]
  · intro hlen
    have hc : convertNode (some (.funcCall (some name) args)) ctx
        = Except.ok ("/* " ++ pyUpper name ++ ": wrong argument count */") := by
      match rs, hlen with
      | [], _ =>
        simp [convertNode, convertCore, hne, hargs, hreg, hslot, bind, Except.bind]
      | [a], hlen => exact absurd rfl hlen
      | a :: b :: tl, _ =>
        simp [convertNode, convertCore, hne, hargs, hreg, hslot, bind, Except.bind]
    simp [convert_to_lookml, hc]

/-- Witness for C8: `YEAR` applied to one field reference instantiates the
`EXTRACT` template. -/
theorem template_arity_witness :
    function_registry (pyUpper "Year") = some "EXTRACT(YEAR FROM \x7b\x7d)" ∧
    hasSlot "EXTRACT(YEAR FROM \x7b\x7d)" = true ∧
    convert_to_lookml (some (.funcCall (some "Year") [.fieldRef (some "d")])) "TABLE"
      = formatSlot "EXTRACT(YEAR FROM \x7b\x7d)" "$\x7bTABLE\x7d.d" := by
  have h3 : convertArgs [ASTNode.fieldRef (some "d")] "TABLE"
      = Except.ok ["$\x7bTABLE\x7d.d"] := by
    simp [convertArgs, convertCore, bind, Except.bind]
    rfl
  exact ⟨rfl, rfl,
    (template_arity "Year" "EXTRACT(YEAR FROM \x7b\x7d)" "TABLE"
      [ASTNode.fieldRef (some "d")] ["$\x7bTABLE\x7d.d"] rfl rfl h3).1 _ rfl⟩

/-! ## Lemmas for the `create_clean_name_from_caption` characterization -/

theorem isAlnum_ne_underscore {ch : Char} (h : isAlnumLower ch = true) : ¬(ch = '_') := by
  intro hc
  subst hc
  exact absurd h (by decide)

theorem subNA_cons_alnum {c : Char} {rest : List Char} (h : isAlnumLower c = true)
    (b : Bool) : subNonAlnum (c :: rest) b = c :: subNonAlnum rest false := by
  simp [subNonAlnum, h]

theorem subNA_cons_gap_true {c : Char} {rest : List Char} (h : isAlnumLower c = false) :
    subNonAlnum (c :: rest) true = subNonAlnum rest true := by
  simp [subNonAlnum, h]

theorem subNA_cons_gap_false {c : Char} {rest : List Char} (h : isAlnumLower c = false) :
    subNonAlnum (c :: rest) false = '_' :: subNonAlnum rest true := by
  simp [subNonAlnum, h]

theorem subNA_true_head : ∀ (l : List Char) (c : Char),
    (subNonAlnum l true).head? = some c → isAlnumLower c = true := by
  intro l
  induction l with
  | nil => intro c h; simp [subNonAlnum] at h
  | cons d rest ih =>
    intro c h
    by_cases hd : isAlnumLower d
    · rw [subNA_cons_alnum hd] at h
      simp only [List.head?_cons, Option.some.injEq] at h
      rw [← h]
      exact hd
    · rw [subNA_cons_gap_true (Bool.not_eq_true _ ▸ hd)] at h
      exact ih c h

theorem collapseU_cons_underscore {rest : List Char} :
    collapseU ('_' :: rest) false = '_' :: collapseU rest true := by
  simp [collapseU]

theorem collapseU_cons_underscore_skip {rest : List Char} :
    collapseU ('_' :: rest) true = collapseU rest true := by
  simp [collapseU]

theorem collapseU_cons_other {c : Char} {rest : List Char} (h : ¬(c = '_')) (b : Bool) :
    collapseU (c :: rest) b = c :: collapseU rest false := by
  simp [collapseU, h]

theorem collapse_of_chain : ∀ x : List Char,
    List.Chain' (fun a b => ¬(a = '_' ∧ b = '_')) x →
    collapseU x false = x ∧ (x.head? ≠ some '_' → collapseU x true = x) := by
  intro x
  induction x with
  | nil => intro _; exact ⟨rfl, fun _ => rfl⟩
  | cons c rest ih =>
    intro hch
    obtain ⟨hrel, hrest⟩ := List.chain'_cons'.mp hch
    by_cases hc : c = '_'
    · subst hc
      have hhead : rest.head? ≠ some '_' := by
        intro hh
        exact hrel '_' hh ⟨rfl, rfl⟩
      refine ⟨?_, ?_⟩
      · rw [collapseU_cons_underscore, (ih hrest).2 hhead]
      · intro hh'
        exact absurd rfl hh'
    · refine ⟨?_, ?_⟩
      · rw [collapseU_cons_other hc, (ih hrest).1]
      · intro _
        rw [collapseU_cons_other hc, (ih hrest).1]

theorem subNA_chain : ∀ (l : List Char) (b : Bool),
    List.Chain' (fun a b => ¬(a = '_' ∧ b = '_')) (subNonAlnum l b) := by
  intro l
  induction l with
  | nil => intro b; simp [subNonAlnum]
  | cons c rest ih =>
    intro b
    by_cases hc : isAlnumLower c
    · rw [subNA_cons_alnum hc]
      rw [List.chain'_cons']
      refine ⟨?_, ih false⟩
      intro y _ hxy
      exact isAlnum_ne_underscore hc hxy.1
    · cases b with
      | true =>
        rw [subNA_cons_gap_true (Bool.not_eq_true _ ▸ hc)]
        exact ih true
      | false =>
        rw [subNA_cons_gap_false (Bool.not_eq_true _ ▸ hc)]
        rw [List.chain'_cons']
        refine ⟨?_, ih true⟩
        intro y hy hxy
        exact isAlnum_ne_underscore (subNA_true_head rest y hy) hxy.2

theorem collapse_subNA (l : List Char) (b : Bool) :
    collapseU (subNonAlnum l b) false = subNonAlnum l b :=
  (collapse_of_chain _ (subNA_chain l b)).1

theorem alnumRuns_nil : alnumRuns [] = [] := by
  simp [alnumRuns]

theorem alnumRuns_cons_alnum {c : Char} {rest : List Char} (h : isAlnumLower c = true) :
    alnumRuns (c :: rest)
      = (c :: rest.takeWhile isAlnumLower) :: alnumRuns (rest.dropWhile isAlnumLower) := by
  rw [alnumRuns]
  simp [h]

theorem alnumRuns_cons_gap {c : Char} {rest : List Char} (h : isAlnumLower c = false) :
    alnumRuns (c :: rest) = alnumRuns rest := by
  rw [alnumRuns]
  simp [h]

theorem subNA_prefix (rest : List Char) :
    subNonAlnum rest false
      = rest.takeWhile isAlnumLower
        ++ subNonAlnum (rest.dropWhile isAlnumLower) false := by
  induction rest with
  | nil => rfl
  | cons d r2 ih =>
    by_cases hd : isAlnumLower d
    · rw [subNA_cons_alnum hd, List.takeWhile_cons_of_pos hd,
        List.dropWhile_cons_of_pos hd, List.cons_append, ih]
    · rw [List.takeWhile_cons_of_neg (by simp [hd]),
        List.dropWhile_cons_of_neg (by simp [hd]), List.nil_append]

theorem dropWhile_length_le (p : Char → Bool) (l : List Char) :
    (l.dropWhile p).length ≤ l.length := by
  induction l with
  | nil => simp
  | cons d rest ih =>
    rw [List.dropWhile_cons]
    split
    · exact Nat.le_trans ih (Nat.le_succ _)
    · exact Nat.le_refl _

theorem dropWhile_eq_self_of_all {p : Char → Bool} {y : List Char}
    (h : ∀ x ∈ y, p x = false) : y.dropWhile p = y := by
  cases y with
  | nil => rfl
  | cons d rest =>
    exact List.dropWhile_cons_of_neg (by simp [h d (List.mem_cons_self d rest)])

theorem rstrip_eq_self {p : Char → Bool} {y : List Char}
    (h : ∀ x ∈ y, p x = false) : (y.reverse.dropWhile p).reverse = y := by
  rw [dropWhile_eq_self_of_all (fun x hx => h x (List.mem_reverse.mp hx)),
    List.reverse_reverse]

theorem runs_nonempty_fuel : ∀ (n : Nat) (l : List Char), l.length ≤ n →
    ∀ r ∈ alnumRuns l, r ≠ [] := by
  intro n
  induction n with
  | zero =>
    intro l hl
    have h0 : l = [] := List.eq_nil_of_length_eq_zero (Nat.le_zero.mp hl)
    subst h0
    rw [alnumRuns_nil]
    simp
  | succ n ih =>
    intro l hl
    match l with
    | [] => rw [alnumRuns_nil]; simp
    | c :: rest =>
      intro r hr
      by_cases hc : isAlnumLower c
      · rw [alnumRuns_cons_alnum hc] at hr
        rcases List.mem_cons.mp hr with h | h
        · rw [h]; simp
        · refine ih (rest.dropWhile isAlnumLower) ?_ r h
          have h1 := dropWhile_length_le isAlnumLower rest
          simp only [List.length_cons] at hl
          omega
      · rw [alnumRuns_cons_gap (Bool.not_eq_true _ ▸ hc)] at hr
        refine ih rest ?_ r hr
        simp only [List.length_cons] at hl
        omega

theorem runs_nonempty (l : List Char) : ∀ r ∈ alnumRuns l, r ≠ [] :=
  runs_nonempty_fuel l.length l (Nat.le_refl _)

theorem joinRuns_cons_cons (r r2 : List Char) (rs : List (List Char)) :
    joinRuns (r :: r2 :: rs) = r ++ '_' :: joinRuns (r2 :: rs) := by
  simp [joinRuns]

theorem joinRuns_eq_nil {rs : List (List Char)} (h : joinRuns rs = [])
    (hne : ∀ r ∈ rs, r ≠ []) : rs = [] := by
  match rs with
  | [] => rfl
  | [r] =>
    exact absurd h (hne r (List.mem_cons_self _ _))
  | r :: r2 :: rs' =>
    rw [joinRuns_cons_cons] at h
    simp at h

theorem rstrip_subNA_true_fuel : ∀ (n : Nat) (l : List Char), l.length ≤ n →
    ((subNonAlnum l true).reverse.dropWhile (· == '_')).reverse
      = joinRuns (alnumRuns l) := by
  intro n
  induction n with
  | zero =>
    intro l hl
    have h0 : l = [] := List.eq_nil_of_length_eq_zero (Nat.le_zero.mp hl)
    subst h0
    rw [alnumRuns_nil]
    rfl
  | succ n ih =>
    intro l hl
    match l with
    | [] => rw [alnumRuns_nil]; rfl
    | c :: rest =>
      by_cases hc : isAlnumLower c
      · have hsub : subNonAlnum (c :: rest) true
            = (c :: rest.takeWhile isAlnumLower)
              ++ subNonAlnum (rest.dropWhile isAlnumLower) false := by
          rw [subNA_cons_alnum hc, subNA_prefix rest, List.cons_append]
        have hA : ∀ x ∈ (c :: rest.takeWhile isAlnumLower), isAlnumLower x = true := by
          intro x hx
          rcases List.mem_cons.mp hx with rfl | hx
          · exact hc
          · exact List.mem_takeWhile_imp hx
        have hAnu : ∀ x ∈ (c :: rest.takeWhile isAlnumLower), (x == '_') = false := by
          intro x hx
          simpa using isAlnum_ne_underscore (hA x hx)
        rw [hsub, alnumRuns_cons_alnum hc]
        cases hd : rest.dropWhile isAlnumLower with
        | nil =>
          rw [show subNonAlnum [] false = [] from rfl, List.append_nil, alnumRuns_nil,
            rstrip_eq_self hAnu]
          rfl
        | cons g d2 =>
          have hg : isAlnumLower g = false := by
            have h := List.head?_dropWhile_not isAlnumLower rest
            rw [hd] at h
            simpa using h
          rw [subNA_cons_gap_false hg, alnumRuns_cons_gap hg]
          have hY : ((subNonAlnum d2 true).reverse.dropWhile (· == '_')).reverse
              = joinRuns (alnumRuns d2) := by
            refine ih d2 ?_
            have h1 := dropWhile_length_le isAlnumLower rest
            rw [hd] at h1
            simp only [List.length_cons] at h1 hl
            omega
          have hrw : (c :: rest.takeWhile isAlnumLower ++ '_' :: subNonAlnum d2 true).reverse
              = (subNonAlnum d2 true).reverse
                ++ '_' :: (c :: rest.takeWhile isAlnumLower).reverse := by
            simp
          cases hY0 : (subNonAlnum d2 true).reverse.dropWhile (· == '_') with
          | nil =>
            have hallrev : ∀ x ∈ (subNonAlnum d2 true).reverse, (x == '_') = true :=
              List.dropWhile_eq_nil_iff.mp hY0
            rw [hrw, List.dropWhile_append_of_pos hallrev,
              List.dropWhile_cons_of_pos (by simp),
              dropWhile_eq_self_of_all (fun x hx => hAnu x (List.mem_reverse.mp hx)),
              List.reverse_reverse]
            have hruns0 : alnumRuns d2 = [] := by
              apply joinRuns_eq_nil ?_ (runs_nonempty d2)
              rw [← hY, hY0]
              rfl
            rw [hruns0]
            rfl
          | cons z zs =>
            have hne2 : ¬((subNonAlnum d2 true).reverse.dropWhile (· == '_')).isEmpty = true := by
              rw [hY0]; simp
            rw [hrw, List.dropWhile_append, if_neg hne2, List.reverse_append]
            have hsingle : ('_' :: (c :: rest.takeWhile isAlnumLower).reverse).reverse
                = (c :: rest.takeWhile isAlnumLower) ++ ['_'] := by simp
            rw [hsingle]
            have hrunsne : alnumRuns d2 ≠ [] := by
              intro h0
              rw [h0] at hY
              rw [hY0] at hY
              simp [joinRuns] at hY
            obtain ⟨r2, rs', hr2⟩ := List.exists_cons_of_ne_nil hrunsne
            rw [hr2, joinRuns_cons_cons, ← hr2, ← hY, hY0]
            simp
      · rw [subNA_cons_gap_true (Bool.not_eq_true _ ▸ hc),
          alnumRuns_cons_gap (Bool.not_eq_true _ ▸ hc)]
        refine ih rest ?_
        simp only [List.length_cons] at hl
        omega

theorem stripU_subNA_false (l : List Char) :
    pyStripP (· == '_') (subNonAlnum l false) = joinRuns (alnumRuns l) := by
  unfold pyStripP
  cases l with
  | nil => rw [alnumRuns_nil]; rfl
  | cons c rest =>
    by_cases hc : isAlnumLower c
    · rw [subNA_cons_alnum hc,
        List.dropWhile_cons_of_neg (by simpa using isAlnum_ne_underscore hc),
        ← subNA_cons_alnum hc true]
      exact rstrip_subNA_true_fuel (c :: rest).length (c :: rest) (Nat.le_refl _)
    · rw [subNA_cons_gap_false (Bool.not_eq_true _ ▸ hc),
        List.dropWhile_cons_of_pos (by simp),
        alnumRuns_cons_gap (Bool.not_eq_true _ ▸ hc)]
      have hself : (subNonAlnum rest true).dropWhile (· == '_') = subNonAlnum rest true := by
        cases hY : subNonAlnum rest true with
        | nil => rfl
        | cons y ys =>
          refine List.dropWhile_cons_of_neg ?_
          have hy : isAlnumLower y = true := subNA_true_head rest y (by rw [hY]; rfl)
          simpa using isAlnum_ne_underscore hy
      rw [hself]
      exact rstrip_subNA_true_fuel rest.length rest (Nat.le_refl _)

/-- C3 amended: `create_clean_name_from_caption` is a pure, total,
deterministic transform equal, on every input string, to: lowercase;
replace `%` with the literal `"_percent"`; then replace every maximal run
of characters outside `[a-z0-9]` with a single underscore, collapse
repeated underscores and strip boundary underscores (expressed here as
joining the maximal `[a-z0-9]` runs with single underscores); and it maps
the empty string to the empty string. -/
theorem derive_clean_name_amended_spec (s : String) :
    create_clean_name_from_caption s = derive_clean_name_amended s ∧
    create_clean_name_from_caption "" = "" := by
  refine ⟨?_, rfl⟩
  simp only [create_clean_name_from_caption, derive_clean_name_amended]
  congr 1
  rw [collapse_subNA, stripU_subNA_false]

end AccelPkg
